import Mathlib

/-!
Verification of the selection-and-mask subsystem of an in-browser raster
image editor.  The development shallowly embeds the pixel-level services
(`MaskService`, `MagicWandService`, `BrushSelectionService`,
`HistoryService`, `ExportService`, `PolygonSelectionService`) as pure Lean
functions over lists of RGBA pixels and proves the testable properties of
the specification against them.

Conventions of the embedding:
* an `ImageData` buffer (flat RGBA byte array walked in steps of 4) is
  represented as a `List RGBA`, one entry per pixel in row-major order;
* canvas side effects (`putImageData`, returning a fresh canvas) become the
  returned value of the embedded function;
* JavaScript `Math.sqrt(d) <= t` comparisons on non-negative integers are
  embedded as the equivalent `d <= t^2` comparison on squared distances;
* fallible operations return `Except`/`Option`.
-/

/-- One RGBA pixel: four byte channels (each 0–255 in real image data;
the embedding uses `ℕ` and never needs the upper bound). -/
structure RGBA where
  r : ℕ
  g : ℕ
  b : ℕ
  a : ℕ
  deriving DecidableEq, Repr

instance : Inhabited RGBA := ⟨⟨0, 0, 0, 0⟩⟩

/-- A parsed solid colour, as returned by `MaskService.parseColor`. -/
structure RGB where
  r : ℕ
  g : ℕ
  b : ℕ
  deriving DecidableEq, Repr

namespace MaskService

/-- Per-pixel body of the loop of `MaskService.invertSelection`
(src/unnamed/part_006 lines 108–116): output pixels live in a fresh
zero-initialised `createImageData` buffer, so RGB channels are 0, and the
alpha is 0 when the original alpha exceeds 128 and 255 otherwise. -/
def invertPixel (p : RGBA) : RGBA :=
  if 128 < p.a then ⟨0, 0, 0, 0⟩ else ⟨0, 0, 0, 255⟩

/-- `MaskService.invertSelection` (part_006 lines 79–125): builds a brand-
new buffer from the input mask, pixel by pixel.  The input buffer is only
read, never written, so in the embedding the argument is untouched and the
result is a fresh list. -/
def invertSelection (mask : List RGBA) : List RGBA :=
  mask.map invertPixel

/-- Per-pixel body of the loop of `MaskService.deleteSelectedArea`
(part_006 lines 48–63).  `fill = none` models the `'transparent'`
sentinel, `fill = some c` a solid colour already resolved by
`parseColor`. -/
def deletePixel (fill : Option RGB) (src msk : RGBA) : RGBA :=
  if 128 < msk.a then
    match fill with
    | none => { src with a := 0 }
    | some c => ⟨c.r, c.g, c.b, 255⟩
  else src

/-- `MaskService.deleteSelectedArea` (part_006 lines 25–71) restricted to
its pixel loop: walks source and mask buffers in lock step and writes the
modified source buffer back. -/
def deleteSelectedArea (fill : Option RGB) (src msk : List RGBA) : List RGBA :=
  List.zipWith (deletePixel fill) src msk

end MaskService

lemma invertPixel_invertPixel_invertPixel (p : RGBA) :
    MaskService.invertPixel (MaskService.invertPixel (MaskService.invertPixel p)) =
      MaskService.invertPixel p := by
  unfold MaskService.invertPixel
  split <;> simp

/-- getD of a zipWith at an index inside both lists. -/
lemma getD_zipWith {α : Type} (f : α → α → α) (d : α) :
    ∀ (xs ys : List α) (i : ℕ), i < xs.length → i < ys.length →
      (List.zipWith f xs ys).getD i d = f (xs.getD i d) (ys.getD i d) := by
  intro xs
  induction xs with
  | nil => intro ys i h _; simp at h
  | cons x xs ih =>
    intro ys i h1 h2
    cases ys with
    | nil => simp at h2
    | cons y ys =>
      cases i with
      | zero => simp [List.getD]
      | succ j =>
        simp only [List.zipWith_cons_cons]
        have h1' : j < xs.length := by simpa using h1
        have h2' : j < ys.length := by simpa using h2
        simpa [List.getD] using ih ys j h1' h2'

/-- getD of a map at an index inside the list. -/
lemma getD_map {α : Type} (f : α → α) (d : α) :
    ∀ (l : List α) (i : ℕ), i < l.length → (l.map f).getD i d = f (l.getD i d) := by
  intro l
  induction l with
  | nil => intro i h; simp at h
  | cons x xs ih =>
    intro i h
    cases i with
    | zero => simp [List.getD]
    | succ j =>
      have h' : j < xs.length := by simpa using h
      simpa [List.getD] using ih j h'

/-- C1: a mask produced by `invertSelection` has every pixel equal to
`(0,0,0,0)` or `(0,0,0,255)`, and applying `invertSelection` twice more to
it returns it pixel-for-pixel on all four RGBA channels.  Mutation freedom
is inherent to the embedding: the source only reads `originalData` and
writes the freshly created `invertedData`. -/
theorem invertSelection_involutive_on_range (mask : List RGBA) :
    MaskService.invertSelection
        (MaskService.invertSelection (MaskService.invertSelection mask)) =
      MaskService.invertSelection mask := by
  unfold MaskService.invertSelection
  simp only [List.map_map]
  apply List.map_congr_left
  intro p _
  exact invertPixel_invertPixel_invertPixel p

/-- C3: `deleteSelectedArea` with the `'transparent'` sentinel zeroes the
alpha of exactly the pixels whose mask alpha exceeds 128 and keeps their
RGB; with a solid fill colour it overwrites exactly those pixels with the
colour at full opacity; every other pixel is returned byte-identical, and
the output buffer has the dimensions of the source. -/
theorem deleteSelectedArea_spec (src msk : List RGBA) (i : ℕ)
    (hlen : msk.length = src.length) (hi : i < src.length) :
    (MaskService.deleteSelectedArea none src msk).length = src.length ∧
    (∀ c : RGB, (MaskService.deleteSelectedArea (some c) src msk).length = src.length) ∧
    (128 < (msk.getD i default).a →
      (MaskService.deleteSelectedArea none src msk).getD i default =
        { src.getD i default with a := 0 } ∧
      (∀ c : RGB, (MaskService.deleteSelectedArea (some c) src msk).getD i default =
        ⟨c.r, c.g, c.b, 255⟩)) ∧
    ((msk.getD i default).a ≤ 128 →
      (MaskService.deleteSelectedArea none src msk).getD i default = src.getD i default ∧
      (∀ c : RGB, (MaskService.deleteSelectedArea (some c) src msk).getD i default =
        src.getD i default)) := by
  have hi' : i < msk.length := by omega
  have hget : ∀ fill, (MaskService.deleteSelectedArea fill src msk).getD i default =
      MaskService.deletePixel fill (src.getD i default) (msk.getD i default) := by
    intro fill
    exact getD_zipWith (MaskService.deletePixel fill) default src msk i hi hi'
  refine ⟨?_, ?_, ?_, ?_⟩
  · simp [MaskService.deleteSelectedArea, hlen]
  · intro c; simp [MaskService.deleteSelectedArea, hlen]
  · intro hsel
    constructor
    · rw [hget none]
      unfold MaskService.deletePixel
      rw [if_pos hsel]
    · intro c
      rw [hget (some c)]
      unfold MaskService.deletePixel
      rw [if_pos hsel]
  · intro hunsel
    have hnot : ¬ 128 < (msk.getD i default).a := by omega
    constructor
    · rw [hget none]
      unfold MaskService.deletePixel
      rw [if_neg hnot]
    · intro c
      rw [hget (some c)]
      unfold MaskService.deletePixel
      rw [if_neg hnot]

/-- Witness for C3 at a concrete two-pixel raster and mask. -/
theorem deleteSelectedArea_spec_witness :
    ([⟨1, 2, 3, 200⟩, ⟨4, 5, 6, 50⟩] : List RGBA).length = 2 ∧
    (MaskService.deleteSelectedArea none [⟨1, 2, 3, 200⟩, ⟨4, 5, 6, 50⟩]
        [⟨255, 255, 255, 255⟩, ⟨0, 0, 0, 0⟩]).getD 0 default = ⟨1, 2, 3, 0⟩ := by
  have h := deleteSelectedArea_spec [⟨1, 2, 3, 200⟩, ⟨4, 5, 6, 50⟩]
    [⟨255, 255, 255, 255⟩, ⟨0, 0, 0, 0⟩] 0 (by decide) (by decide)
  refine ⟨by decide, ?_⟩
  have h3 := (h.2.2.1 (by decide)).1
  simpa using h3

namespace BrushSelectionService

/-- Per-pixel body of the loop of
`BrushSelectionService.generateSelectionMask` (src/unnamed/part_003 lines
166–174): a painted pixel (alpha above the low threshold 10) becomes
opaque white; the loop has no else branch, so any other pixel is left
exactly as it was in the copied paint layer. -/
def maskifyPixel (p : RGBA) : RGBA :=
  if 10 < p.a then ⟨255, 255, 255, 255⟩ else p

/-- `BrushSelectionService.generateSelectionMask` (part_003 lines
157–178): the overlay (paint layer) canvas is copied onto the cleared
mask-data canvas (`clearRect` + `drawImage`, a plain copy), the loop above
runs over it, and the result becomes the selection mask. -/
def generateSelectionMask (overlay : List RGBA) : List RGBA :=
  overlay.map maskifyPixel

/-- State of a `BrushSelectionService` instance as far as the selection
logic observes it: the drawing flag, the remembered last stroke point, the
overlay (paint layer) pixels and the finalized selection mask (`null`
until first finalized). -/
structure State where
  isDrawing : Bool
  lastPos : Option (ℚ × ℚ)
  overlay : List RGBA
  selectionMask : Option (List RGBA)
  deriving DecidableEq

/-- `BrushSelectionService.continueSelection` (part_003 lines 89–94):
returns immediately when no stroke is active; otherwise `drawLineTo`
stamps interpolated brush circles onto the overlay and records `(x, y)` as
the last point.  Canvas arc rasterization is not pixel-modelled: the
stamping pass is the opaque parameter `paint`. -/
def continueSelection (paint : List RGBA → List RGBA) (s : State) (x y : ℚ) : State :=
  if s.isDrawing = false then s
  else { s with overlay := paint s.overlay, lastPos := some (x, y) }

/-- `BrushSelectionService.endSelection` (part_003 lines 99–104): always
clears the drawing flag and the last point and regenerates the selection
mask from the overlay — there is no `isDrawing` guard. -/
def endSelection (s : State) : State :=
  { s with isDrawing := false, lastPos := none,
           selectionMask := some (generateSelectionMask s.overlay) }

end BrushSelectionService

/-- Claim C7 as stated is false: `generateSelectionMask` has no else
branch, so a paint-layer pixel with alpha 5 (≤ 10) is returned unchanged
with alpha 5, not forced to fully transparent.  Concrete counterexample:
a one-pixel overlay painted at alpha 5. -/
theorem generateSelectionMask_not_binarizing :
    ((BrushSelectionService.generateSelectionMask [⟨255, 107, 107, 5⟩]).getD 0 default).a = 5 ∧
    (5 : ℕ) ≠ 0 := by
  decide

/-- C7 (amended): after `end()` the selection mask is recomputed from the
accumulated paint layer; every pixel with alpha above the low threshold 10
becomes fully opaque white `(255,255,255,255)`, and every other pixel is
left unchanged from the paint layer (it keeps its small alpha, which every
downstream selection threshold treats as unselected). -/
theorem endSelection_mask_spec (s : BrushSelectionService.State) (i : ℕ)
    (hi : i < s.overlay.length) :
    ∃ m, (BrushSelectionService.endSelection s).selectionMask = some m ∧
      m.length = s.overlay.length ∧
      (10 < (s.overlay.getD i default).a → m.getD i default = ⟨255, 255, 255, 255⟩) ∧
      ((s.overlay.getD i default).a ≤ 10 → m.getD i default = s.overlay.getD i default) := by
  have hmap : (BrushSelectionService.generateSelectionMask s.overlay).getD i default =
      BrushSelectionService.maskifyPixel (s.overlay.getD i default) := by
    exact getD_map BrushSelectionService.maskifyPixel default s.overlay i hi
  refine ⟨BrushSelectionService.generateSelectionMask s.overlay, rfl, by
    simp [BrushSelectionService.generateSelectionMask], ?_, ?_⟩
  · intro h
    rw [hmap]
    unfold BrushSelectionService.maskifyPixel
    rw [if_pos h]
  · intro h
    have hnot : ¬ 10 < (s.overlay.getD i default).a := by omega
    rw [hmap]
    unfold BrushSelectionService.maskifyPixel
    rw [if_neg hnot]


/-- Witness for C7 (amended) on a concrete three-pixel paint layer. -/
theorem endSelection_mask_spec_witness :
    (0 : ℕ) < 3 ∧
    ∃ m, (BrushSelectionService.endSelection
        ⟨false, none, [⟨255, 107, 107, 178⟩, ⟨255, 107, 107, 5⟩, ⟨0, 0, 0, 0⟩], none⟩).selectionMask
          = some m ∧
      m.length = 3 ∧
      (10 < (178 : ℕ) → m.getD 0 default = ⟨255, 255, 255, 255⟩) ∧
      ((178 : ℕ) ≤ 10 → m.getD 0 default = ⟨255, 107, 107, 178⟩) := by
  refine ⟨by decide, ?_⟩
  have h := endSelection_mask_spec
    ⟨false, none, [⟨255, 107, 107, 178⟩, ⟨255, 107, 107, 5⟩, ⟨0, 0, 0, 0⟩], none⟩ 0 (by decide)
  simpa using h

/-- Claim C8 as stated is false for `end()`: on a fresh service (no stroke
ever started, `selectionMask` still null) `endSelection` runs
unconditionally and installs a generated mask, so `getMask()` changes from
null to a mask. -/
theorem endSelection_without_start_not_noop :
    (BrushSelectionService.endSelection
        ⟨false, none, [⟨0, 0, 0, 0⟩], none⟩).selectionMask ≠
      (⟨false, none, [⟨0, 0, 0, 0⟩], none⟩ : BrushSelectionService.State).selectionMask := by
  decide

/-- C8 (amended): with no active stroke, `continue(x,y)` is a strict no-op
(whatever the brush rasterizer would paint), while `end()` leaves the
paint layer, the drawing flag and the last point unchanged but still
regenerates the selection mask from the paint layer and installs it, so
`getMask()` becomes non-null even though no stroke occurred. -/
theorem brush_without_start_spec (s : BrushSelectionService.State)
    (hnotdrawing : s.isDrawing = false) :
    (∀ (paint : List RGBA → List RGBA) (x y : ℚ),
        BrushSelectionService.continueSelection paint s x y = s) ∧
    (BrushSelectionService.endSelection s).overlay = s.overlay ∧
    (BrushSelectionService.endSelection s).isDrawing = false ∧
    (BrushSelectionService.endSelection s).lastPos = none ∧
    (BrushSelectionService.endSelection s).selectionMask =
      some (BrushSelectionService.generateSelectionMask s.overlay) := by
  refine ⟨?_, rfl, rfl, rfl, rfl⟩
  intro paint x y
  unfold BrushSelectionService.continueSelection
  rw [if_pos hnotdrawing]

/-- Witness for C8 (amended) on a concrete fresh service state. -/
theorem brush_without_start_spec_witness :
    (⟨false, none, [⟨1, 2, 3, 4⟩], none⟩ : BrushSelectionService.State).isDrawing = false ∧
    (∀ (paint : List RGBA → List RGBA) (x y : ℚ),
        BrushSelectionService.continueSelection paint ⟨false, none, [⟨1, 2, 3, 4⟩], none⟩ x y =
          ⟨false, none, [⟨1, 2, 3, 4⟩], none⟩) := by
  refine ⟨rfl, ?_⟩
  exact (brush_without_start_spec ⟨false, none, [⟨1, 2, 3, 4⟩], none⟩ rfl).1

namespace PolygonSelectionService

/-- State of a `PolygonSelectionService` instance as far as the vertex
logic observes it (src/src/services/polygonSelectionService.js): the
vertex list, the completion flag, the preview mouse position, and the
selection mask.  Canvas polygon rasterization is not pixel-modelled: the
mask is represented by the vertex list it is filled from at close time. -/
structure State where
  points : List (ℚ × ℚ)
  isComplete : Bool
  currentMousePos : Option (ℚ × ℚ)
  selectionMask : Option (List (ℚ × ℚ))
  deriving DecidableEq

/-- `PolygonSelectionService.closePolygon` (lines 102–110): needs at
least 3 vertices; marks the polygon complete, drops the preview position,
fills the polygon on overlay and mask canvases (`fillPolygon` +
`generateSelectionMask`) and reports success. -/
def closePolygon (s : State) : State × Bool :=
  if s.points.length < 3 then (s, false)
  else ({ s with isComplete := true, currentMousePos := none,
                 selectionMask := some s.points }, true)

/-- `PolygonSelectionService.addPoint` (lines 62–84): a closed polygon
rejects the click; with at least 3 vertices a click whose Euclidean
distance to the first vertex is at most 10 closes the polygon (the
`Math.sqrt(d) <= 10` test is embedded as `d <= 10^2`); otherwise the
vertex is appended and the outline redrawn. -/
def addPoint (s : State) (x y : ℚ) : State × Bool :=
  if s.isComplete = true then (s, false)
  else if 3 ≤ s.points.length ∧
      (x - (s.points.getD 0 (0, 0)).1) ^ 2 + (y - (s.points.getD 0 (0, 0)).2) ^ 2 ≤ 10 ^ 2 then
    ((closePolygon s).1, true)
  else ({ s with points := s.points ++ [(x, y)] }, true)

end PolygonSelectionService

/-- C9: `addPoint` returns false and leaves the state untouched exactly
when the polygon is already closed; when open it always changes the state
and returns true; with fewer than 3 vertices it always appends (it cannot
close); with at least 3 vertices it closes — leaving the vertex list
unchanged, marking completion and filling the mask — exactly when the
click is within Euclidean distance 10 of the first vertex, a test that
depends only on that distance; otherwise it appends. -/
theorem addPoint_spec (s : PolygonSelectionService.State) (x y : ℚ) :
    ((PolygonSelectionService.addPoint s x y).2 = false ↔ s.isComplete = true) ∧
    (s.isComplete = true → (PolygonSelectionService.addPoint s x y).1 = s) ∧
    (s.isComplete = false → (PolygonSelectionService.addPoint s x y).1 ≠ s) ∧
    (s.isComplete = false → s.points.length < 3 →
      PolygonSelectionService.addPoint s x y =
        ({ s with points := s.points ++ [(x, y)] }, true)) ∧
    (s.isComplete = false → 3 ≤ s.points.length →
      (x - (s.points.getD 0 (0, 0)).1) ^ 2 + (y - (s.points.getD 0 (0, 0)).2) ^ 2 ≤ 100 →
      PolygonSelectionService.addPoint s x y =
        ({ s with isComplete := true, currentMousePos := none,
                  selectionMask := some s.points }, true)) ∧
    (s.isComplete = false → 3 ≤ s.points.length →
      ¬ (x - (s.points.getD 0 (0, 0)).1) ^ 2 + (y - (s.points.getD 0 (0, 0)).2) ^ 2 ≤ 100 →
      PolygonSelectionService.addPoint s x y =
        ({ s with points := s.points ++ [(x, y)] }, true)) := by
  by_cases hc : s.isComplete = true
  · refine ⟨by simp [PolygonSelectionService.addPoint, hc], ?_, ?_, ?_, ?_, ?_⟩
    · intro _; simp [PolygonSelectionService.addPoint, hc]
    · intro h; rw [hc] at h; exact absurd h (by decide)
    · intro h; rw [hc] at h; exact absurd h (by decide)
    · intro h; rw [hc] at h; exact absurd h (by decide)
    · intro h; rw [hc] at h; exact absurd h (by decide)
  · have hc' : s.isComplete = false := by
      cases h : s.isComplete
      · rfl
      · exact absurd h hc
    by_cases hsnap : 3 ≤ s.points.length ∧
        (x - (s.points.getD 0 (0, 0)).1) ^ 2 + (y - (s.points.getD 0 (0, 0)).2) ^ 2 ≤ 10 ^ 2
    · have hres : PolygonSelectionService.addPoint s x y =
          ({ s with isComplete := true, currentMousePos := none,
                    selectionMask := some s.points }, true) := by
        unfold PolygonSelectionService.addPoint
        rw [if_neg (by simp [hc']), if_pos hsnap]
        unfold PolygonSelectionService.closePolygon
        rw [if_neg (by omega)]
      refine ⟨by simp [hres, hc'], ?_, ?_, ?_, ?_, ?_⟩
      · intro h; exact absurd h hc
      · intro _
        rw [hres]
        intro heq
        have h2 := congrArg PolygonSelectionService.State.isComplete heq
        simp [hc'] at h2
      · intro _ hlen
        exact absurd hsnap.1 (by omega)
      · intro _ _ _
        exact hres
      · intro _ _ hfar
        exact absurd (by simpa using hsnap.2) hfar
    · have hres : PolygonSelectionService.addPoint s x y =
          ({ s with points := s.points ++ [(x, y)] }, true) := by
        unfold PolygonSelectionService.addPoint
        rw [if_neg (by simp [hc']), if_neg hsnap]
      refine ⟨by simp [hres, hc'], ?_, ?_, ?_, ?_, ?_⟩
      · intro h; exact absurd h hc
      · intro _
        rw [hres]
        intro heq
        have h2 := congrArg (fun t => t.points.length) heq
        simp at h2
      · intro _ _
        exact hres
      · intro _ hlen hnear
        exact absurd ⟨hlen, by simpa using hnear⟩ hsnap
      · intro _ _ _
        exact hres

/-- Witness for C9: a square polygon closed by a click at distance 0 from
its first vertex. -/
theorem addPoint_spec_witness :
    ((⟨[(10, 10), (100, 10), (100, 100), (10, 100)], false, none, none⟩ :
        PolygonSelectionService.State).isComplete = false) ∧
    PolygonSelectionService.addPoint
        ⟨[(10, 10), (100, 10), (100, 100), (10, 100)], false, none, none⟩ 10 10 =
      (⟨[(10, 10), (100, 10), (100, 100), (10, 100)], true, none,
        some [(10, 10), (100, 10), (100, 100), (10, 100)]⟩, true) := by
  refine ⟨rfl, ?_⟩
  have h := (addPoint_spec
    ⟨[(10, 10), (100, 10), (100, 100), (10, 100)], false, none, none⟩ 10 10).2.2.2.2.1
    rfl (by decide) (by norm_num)
  simpa using h


namespace HistoryService

/-- Snapshot entries are identified by their encoded data URL; the
embedding abstracts the PNG data-URL string as a natural number tag. -/
structure State where
  maxHistorySize : ℕ
  historyStack : List ℕ
  currentIndex : ℤ
  deriving DecidableEq, Repr

/-- Constructor state of `HistoryService` (src/unnamed/part_004 lines
10–14). -/
def init (maxSize : ℕ) : State := ⟨maxSize, [], -1⟩

/-- JavaScript `array.slice(0, e)` on a possibly negative end index. -/
def jsSliceTo (l : List ℕ) (e : ℤ) : List ℕ :=
  if e < 0 then l.take ((l.length : ℤ) + e).toNat else l.take e.toNat

/-- `HistoryService.saveState` (part_004 lines 21–51): truncate the
branch beyond `currentIndex` when undos happened, push the new snapshot,
then either evict the oldest entry (`shift`, index untouched) when the
bound is exceeded or advance `currentIndex`. -/
def saveState (s : State) (e : ℕ) : State :=
  let stack0 := if s.currentIndex < (s.historyStack.length : ℤ) - 1 then
      jsSliceTo s.historyStack (s.currentIndex + 1)
    else s.historyStack
  let stack1 := stack0 ++ [e]
  if s.maxHistorySize < stack1.length then
    { s with historyStack := stack1.drop 1 }
  else
    { s with historyStack := stack1, currentIndex := s.currentIndex + 1 }

/-- `HistoryService.canUndo` (line 129). -/
def canUndo (s : State) : Bool := decide (0 < s.currentIndex)

/-- `HistoryService.canRedo` (line 137). -/
def canRedo (s : State) : Bool := decide (s.currentIndex < (s.historyStack.length : ℤ) - 1)

/-- `HistoryService.undo` (lines 87–101), successful-restore path:
decrement the index when undo is available, else report failure. -/
def undo (s : State) : State × Bool :=
  if canUndo s = true then ({ s with currentIndex := s.currentIndex - 1 }, true)
  else (s, false)

/-- `HistoryService.redo` (lines 108–122), successful-restore path. -/
def redo (s : State) : State × Bool :=
  if canRedo s = true then ({ s with currentIndex := s.currentIndex + 1 }, true)
  else (s, false)

/-- `HistoryService.clearHistory` (lines 159–162). -/
def clearHistory (s : State) : State :=
  { s with historyStack := [], currentIndex := -1 }

/-- One call of the public mutating API. -/
inductive Op where
  | save (e : ℕ)
  | stepBack
  | stepForward
  | clear
  deriving DecidableEq, Repr

/-- Dispatch one call. -/
def applyOp (s : State) : Op → State
  | .save e => saveState s e
  | .stepBack => (undo s).1
  | .stepForward => (redo s).1
  | .clear => clearHistory s

/-- Run a call sequence from the constructor state. -/
def run (maxSize : ℕ) (ops : List Op) : State :=
  ops.foldl applyOp (init maxSize)

/-- The HistoryStack state invariant of the specification. -/
def Inv (s : State) : Prop :=
  (s.historyStack = [] ∧ s.currentIndex = -1) ∨
  (0 ≤ s.currentIndex ∧ s.currentIndex < (s.historyStack.length : ℤ) ∧
    s.historyStack.length ≤ s.maxHistorySize)

end HistoryService

/-- saveState on an invariant state: exact characterization of both
branches, invariant preservation, and the index pointing at the appended
(newest) entry. -/
lemma saveState_spec (s : HistoryService.State) (e : ℕ)
    (hmax : 1 ≤ s.maxHistorySize) (hInv : HistoryService.Inv s) :
    (((s.historyStack.take (s.currentIndex + 1).toNat).length + 1 ≤ s.maxHistorySize →
      HistoryService.saveState s e =
        { s with historyStack := s.historyStack.take (s.currentIndex + 1).toNat ++ [e],
                 currentIndex := s.currentIndex + 1 }) ∧
    (s.maxHistorySize < (s.historyStack.take (s.currentIndex + 1).toNat).length + 1 →
      HistoryService.saveState s e =
        { s with historyStack :=
            (s.historyStack.take (s.currentIndex + 1).toNat ++ [e]).drop 1 }) ∧
    HistoryService.Inv (HistoryService.saveState s e) ∧
    (HistoryService.saveState s e).currentIndex =
      ((HistoryService.saveState s e).historyStack.length : ℤ) - 1 ∧
    (HistoryService.saveState s e).historyStack.getLast? = some e) := by
  have hstack0 : (if s.currentIndex < (s.historyStack.length : ℤ) - 1 then
      HistoryService.jsSliceTo s.historyStack (s.currentIndex + 1)
    else s.historyStack) = s.historyStack.take (s.currentIndex + 1).toNat := by
    rcases hInv with ⟨hnil, hidx⟩ | ⟨h0, hlt, hle⟩
    · rw [hnil, hidx]
      simp [HistoryService.jsSliceTo]
    · by_cases hcond : s.currentIndex < (s.historyStack.length : ℤ) - 1
      · rw [if_pos hcond]
        unfold HistoryService.jsSliceTo
        rw [if_neg (by omega)]
      · rw [if_neg hcond]
        have : (s.currentIndex + 1).toNat = s.historyStack.length := by omega
        rw [this, List.take_length]
  rcases hInv with ⟨hnil, hidx⟩ | ⟨h0, hlt, hle⟩
  · have hkept : s.historyStack.take (s.currentIndex + 1).toNat = [] := by
      rw [hnil]; simp
    have hres : HistoryService.saveState s e =
        { s with historyStack := [e], currentIndex := s.currentIndex + 1 } := by
      unfold HistoryService.saveState
      simp only [hstack0, hkept, List.nil_append]
      rw [if_neg (by simp; omega)]
    refine ⟨?_, ?_, ?_, ?_, ?_⟩
    · intro _
      rw [hres, hkept]
      rfl
    · intro hov
      rw [hkept] at hov
      simp at hov
      omega
    · rw [hres]
      unfold HistoryService.Inv
      right
      refine ⟨?_, ?_, ?_⟩
      · show (0 : ℤ) ≤ s.currentIndex + 1
        omega
      · show s.currentIndex + 1 < (([e] : List ℕ).length : ℤ)
        simp
        omega
      · show ([e] : List ℕ).length ≤ s.maxHistorySize
        simpa using hmax
    · rw [hres]
      show s.currentIndex + 1 = (([e] : List ℕ).length : ℤ) - 1
      simp
      omega
    · rw [hres]
      show ([e] : List ℕ).getLast? = some e
      simp
  · -- non-empty invariant branch
    have htn : ((s.currentIndex + 1).toNat : ℤ) = s.currentIndex + 1 := by omega
    have hkeptlen : (s.historyStack.take (s.currentIndex + 1).toNat).length =
        (s.currentIndex + 1).toNat := by
      rw [List.length_take]
      omega
    by_cases hov : s.maxHistorySize <
        (s.historyStack.take (s.currentIndex + 1).toNat).length + 1
    · have hres : HistoryService.saveState s e =
          { s with historyStack :=
              (s.historyStack.take (s.currentIndex + 1).toNat ++ [e]).drop 1 } := by
        unfold HistoryService.saveState
        simp only [hstack0]
        rw [if_pos (by simpa using hov)]
      have hkeptpos : 0 < (s.historyStack.take (s.currentIndex + 1).toNat).length := by
        omega
      have hdroplen :
          ((s.historyStack.take (s.currentIndex + 1).toNat ++ [e]).drop 1).length =
            (s.historyStack.take (s.currentIndex + 1).toNat).length := by
        simp
      refine ⟨?_, ?_, ?_, ?_, ?_⟩
      · intro hno; omega
      · intro _; exact hres
      · rw [hres]
        unfold HistoryService.Inv
        right
        refine ⟨?_, ?_, ?_⟩
        · show (0 : ℤ) ≤ s.currentIndex
          omega
        · show s.currentIndex <
            ((((s.historyStack.take (s.currentIndex + 1).toNat) ++ [e]).drop 1).length : ℤ)
          rw [hdroplen, hkeptlen]
          omega
        · show (((s.historyStack.take (s.currentIndex + 1).toNat) ++ [e]).drop 1).length ≤
            s.maxHistorySize
          rw [hdroplen, hkeptlen]
          omega
      · rw [hres]
        show s.currentIndex =
          ((((s.historyStack.take (s.currentIndex + 1).toNat) ++ [e]).drop 1).length : ℤ) - 1
        rw [hdroplen, hkeptlen]
        omega
      · rw [hres]
        show (((s.historyStack.take (s.currentIndex + 1).toNat) ++ [e]).drop 1).getLast? = some e
        rcases List.exists_cons_of_ne_nil (List.ne_nil_of_length_pos hkeptpos) with ⟨a, t, hat⟩
        rw [hat]
        simp
    · have hres : HistoryService.saveState s e =
          { s with historyStack := s.historyStack.take (s.currentIndex + 1).toNat ++ [e],
                   currentIndex := s.currentIndex + 1 } := by
        unfold HistoryService.saveState
        simp only [hstack0]
        rw [if_neg (by simpa using hov)]
      refine ⟨?_, ?_, ?_, ?_, ?_⟩
      · intro _; exact hres
      · intro h; omega
      · rw [hres]
        unfold HistoryService.Inv
        right
        refine ⟨?_, ?_, ?_⟩
        · show (0 : ℤ) ≤ s.currentIndex + 1
          omega
        · show s.currentIndex + 1 <
            (((s.historyStack.take (s.currentIndex + 1).toNat) ++ [e]).length : ℤ)
          rw [List.length_append, hkeptlen]
          simp only [List.length_singleton]
          push_cast
          omega
        · show ((s.historyStack.take (s.currentIndex + 1).toNat) ++ [e]).length ≤
            s.maxHistorySize
          rw [List.length_append, hkeptlen]
          simp only [List.length_singleton]
          omega
      · rw [hres]
        show s.currentIndex + 1 =
          (((s.historyStack.take (s.currentIndex + 1).toNat) ++ [e]).length : ℤ) - 1
        rw [List.length_append, hkeptlen]
        simp only [List.length_singleton]
        push_cast
        omega
      · rw [hres]
        show ((s.historyStack.take (s.currentIndex + 1).toNat) ++ [e]).getLast? = some e
        simp


/-- Every public call preserves the HistoryStack invariant. -/
lemma inv_applyOp (s : HistoryService.State) (op : HistoryService.Op)
    (hmax : 1 ≤ s.maxHistorySize) (hInv : HistoryService.Inv s) :
    HistoryService.Inv (HistoryService.applyOp s op) ∧
    (HistoryService.applyOp s op).maxHistorySize = s.maxHistorySize := by
  cases op with
  | save e =>
    constructor
    · exact (saveState_spec s e hmax hInv).2.2.1
    · show (HistoryService.saveState s e).maxHistorySize = s.maxHistorySize
      simp only [HistoryService.saveState]
      split <;> split <;> rfl
  | stepBack =>
    constructor
    · show HistoryService.Inv (HistoryService.undo s).1
      unfold HistoryService.undo
      by_cases h : HistoryService.canUndo s = true
      · rw [if_pos h]
        unfold HistoryService.canUndo at h
        simp at h
        rcases hInv with ⟨hnil, hidx⟩ | ⟨h0, hlt, hle⟩
        · omega
        · right
          refine ⟨?_, ?_, ?_⟩
          · show (0 : ℤ) ≤ s.currentIndex - 1
            omega
          · show s.currentIndex - 1 < (s.historyStack.length : ℤ)
            omega
          · exact hle
      · rw [if_neg h]
        exact hInv
    · show (HistoryService.undo s).1.maxHistorySize = s.maxHistorySize
      unfold HistoryService.undo
      split <;> rfl
  | stepForward =>
    constructor
    · show HistoryService.Inv (HistoryService.redo s).1
      unfold HistoryService.redo
      by_cases h : HistoryService.canRedo s = true
      · rw [if_pos h]
        unfold HistoryService.canRedo at h
        simp at h
        rcases hInv with ⟨hnil, hidx⟩ | ⟨h0, hlt, hle⟩
        · rw [hnil] at h
          simp at h
          omega
        · right
          refine ⟨?_, ?_, ?_⟩
          · show (0 : ℤ) ≤ s.currentIndex + 1
            omega
          · show s.currentIndex + 1 < (s.historyStack.length : ℤ)
            omega
          · exact hle
      · rw [if_neg h]
        exact hInv
    · show (HistoryService.redo s).1.maxHistorySize = s.maxHistorySize
      unfold HistoryService.redo
      split <;> rfl
  | clear =>
    exact ⟨Or.inl ⟨rfl, rfl⟩, rfl⟩

/-- The invariant holds along every run from the constructor state. -/
lemma inv_run_aux (ops : List HistoryService.Op) :
    ∀ s : HistoryService.State, 1 ≤ s.maxHistorySize → HistoryService.Inv s →
      HistoryService.Inv (ops.foldl HistoryService.applyOp s) ∧
      (ops.foldl HistoryService.applyOp s).maxHistorySize = s.maxHistorySize := by
  induction ops with
  | nil => intro s _ h; exact ⟨h, rfl⟩
  | cons op rest ih =>
    intro s hmax hInv
    have hstep := inv_applyOp s op hmax hInv
    have := ih (HistoryService.applyOp s op) (by rw [hstep.2]; exact hmax) hstep.1
    simp only [List.foldl_cons]
    rw [this.2, hstep.2]
    exact ⟨this.1, rfl⟩

/-- C2: for every call sequence on a HistoryStack with `maxHistorySize ≥ 1`
the state invariant holds after every call (the stack is empty with index
-1, or `0 ≤ currentIndex < length ≤ maxHistorySize`); moreover, on any
invariant state `saveState` first discards every entry after
`currentIndex`, then appends, and when the bound would be exceeded it
drops exactly the oldest entry (index 0) leaving `currentIndex` in place —
in both branches `currentIndex` ends at the position of the newly appended
(newest) entry. -/
theorem historyService_spec (m : ℕ) (hm : 1 ≤ m) (ops : List HistoryService.Op) :
    HistoryService.Inv (HistoryService.run m ops) ∧
    (∀ (s : HistoryService.State) (e : ℕ), 1 ≤ s.maxHistorySize → HistoryService.Inv s →
      ((s.historyStack.take (s.currentIndex + 1).toNat).length + 1 ≤ s.maxHistorySize →
        HistoryService.saveState s e =
          { s with historyStack := s.historyStack.take (s.currentIndex + 1).toNat ++ [e],
                   currentIndex := s.currentIndex + 1 }) ∧
      (s.maxHistorySize < (s.historyStack.take (s.currentIndex + 1).toNat).length + 1 →
        HistoryService.saveState s e =
          { s with historyStack :=
              (s.historyStack.take (s.currentIndex + 1).toNat ++ [e]).drop 1 }) ∧
      (HistoryService.saveState s e).currentIndex =
        ((HistoryService.saveState s e).historyStack.length : ℤ) - 1 ∧
      (HistoryService.saveState s e).historyStack.getLast? = some e) := by
  constructor
  · exact (inv_run_aux ops (HistoryService.init m) (by simpa [HistoryService.init] using hm)
      (Or.inl ⟨rfl, rfl⟩)).1
  · intro s e hmax hInv
    have h := saveState_spec s e hmax hInv
    exact ⟨h.1, h.2.1, h.2.2.2.1, h.2.2.2.2⟩

/-- Witness for C2: `maxHistorySize = 2`, three saves evict the oldest
entry and keep the index at the newest one. -/
theorem historyService_spec_witness :
    (1 : ℕ) ≤ 2 ∧
    HistoryService.Inv (HistoryService.run 2
      [HistoryService.Op.save 10, HistoryService.Op.save 20, HistoryService.Op.save 30]) ∧
    HistoryService.run 2
      [HistoryService.Op.save 10, HistoryService.Op.save 20, HistoryService.Op.save 30] =
      ⟨2, [20, 30], 1⟩ := by
  refine ⟨by decide, (historyService_spec 2 (by decide)
    [HistoryService.Op.save 10, HistoryService.Op.save 20, HistoryService.Op.save 30]).1, ?_⟩
  decide


/-- getD past the end of the list gives the fallback. -/
lemma getD_of_length_le {α : Type} (d : α) :
    ∀ (l : List α) (i : ℕ), l.length ≤ i → l.getD i d = d := by
  intro l
  induction l with
  | nil => intro i _; cases i <;> rfl
  | cons x xs ih =>
    intro i h
    cases i with
    | zero => simp at h
    | succ j => simpa [List.getD] using ih j (by simpa using h)

/-- getD inside the list is a member. -/
lemma getD_mem_of_lt {α : Type} (d : α) :
    ∀ (l : List α) (i : ℕ), i < l.length → l.getD i d ∈ l := by
  intro l
  induction l with
  | nil => intro i h; simp at h
  | cons x xs ih =>
    intro i h
    cases i with
    | zero => simp [List.getD]
    | succ j =>
      have := ih j (by simpa using h)
      simp [List.getD] at this ⊢
      right
      simpa [List.getD] using this

/-- A fold with a pointwise-inert step leaves the accumulator alone. -/
lemma foldl_fixed {α β : Type} (f : β → α → β) (h : ∀ b a, f b a = b) :
    ∀ (l : List α) (b : β), l.foldl f b = b := by
  intro l
  induction l with
  | nil => intro b; rfl
  | cons a t ih =>
    intro b
    rw [List.foldl_cons, h b a]
    exact ih b

namespace ExportService

/-- JavaScript `String.prototype.toLowerCase` restricted to ASCII, which
covers every format string the service compares against ("jpeg"/"png"). -/
def charLower (c : Char) : Char :=
  if 65 ≤ c.toNat ∧ c.toNat ≤ 90 then Char.ofNat (c.toNat + 32) else c

/-- Lower-casing of a whole format string. -/
def strLower (s : String) : String := ⟨s.data.map charLower⟩

/-- `ExportService.isValidFormat` (src/src/services/exportService.js lines
225–227). -/
def isValidFormat (format : String) : Bool :=
  ["jpeg", "png"].contains (strLower format)

/-- `ExportService.getMimeType` (lines 234–237). -/
def getMimeType (format : String) : String :=
  if strLower format == "jpeg" then "image/jpeg" else "image/" ++ strLower format

/-- `ExportService.exportCanvas` (lines 25–38): the format is validated
first; the successful export is abstracted by the MIME type handed to
`toDataURL`. -/
def exportCanvas (format : String) : Except String String :=
  if isValidFormat format = false then
    Except.error ("Unsupported export format: " ++ format ++ ". Supported formats: jpeg, png")
  else
    Except.ok (getMimeType format)

/-- `ExportService.getSelectionBounds` (lines 191–218): scan all pixels
row-major, tracking the min/max coordinates of pixels whose alpha exceeds
the high mask threshold 200; report no bounds when nothing is selected. -/
def getSelectionBounds (W H : ℕ) (mask : List RGBA) : Option (ℕ × ℕ × ℕ × ℕ) :=
  let b := (List.range H).foldl (fun acc y =>
    (List.range W).foldl (fun acc2 x =>
      if 200 < (mask.getD (y * W + x) default).a then
        (min acc2.1 x, min acc2.2.1 y, max acc2.2.2.1 x, max acc2.2.2.2 y)
      else acc2) acc) (W, H, 0, 0)
  if b.2.2.1 < b.1 then none else some b

/-- `ExportService.exportSelection` (lines 48–95): dimension check with
the 1-pixel tolerance, then the bounds computation (raising the
no-selection error), then the masked crop is encoded — note the format is
never validated here; the successful export is abstracted by the bounds
used for cropping and the MIME type handed to `toDataURL`. -/
def exportSelection (W H maskW maskH : ℕ) (mask : List RGBA) (format : String) :
    Except String ((ℕ × ℕ × ℕ × ℕ) × String) :=
  if 1 < ((maskW : ℤ) - (W : ℤ)).natAbs ∨ 1 < ((maskH : ℤ) - (H : ℤ)).natAbs then
    Except.error "Invalid mask canvas dimensions"
  else
    match getSelectionBounds W H mask with
    | none => Except.error "Failed to export selection: No selection found in mask"
    | some b => Except.ok (b, getMimeType format)

end ExportService

/-- On a mask with no pixel above the bounds threshold the scan never
updates its accumulator, so no bounds are found. -/
lemma getSelectionBounds_empty (W H : ℕ) (mask : List RGBA) (hW : 0 < W)
    (hempty : ∀ p ∈ mask, p.a ≤ 200) :
    ExportService.getSelectionBounds W H mask = none := by
  have hfalse : ∀ i, ¬ 200 < (mask.getD i default).a := by
    intro i
    by_cases hi : i < mask.length
    · have hmem := getD_mem_of_lt default mask i hi
      have := hempty _ hmem
      omega
    · rw [getD_of_length_le default mask i (by omega)]
      decide
  unfold ExportService.getSelectionBounds
  have hb : (List.range H).foldl (fun acc y =>
      (List.range W).foldl (fun acc2 x =>
        if 200 < (mask.getD (y * W + x) default).a then
          (min acc2.1 x, min acc2.2.1 y, max acc2.2.2.1 x, max acc2.2.2.2 y)
        else acc2) acc) ((W, H, 0, 0) : ℕ × ℕ × ℕ × ℕ) = (W, H, 0, 0) := by
    apply foldl_fixed
    intro acc y
    apply foldl_fixed
    intro acc2 x
    rw [if_neg (hfalse _)]
  simp only [hb]
  rw [if_pos (by simpa using hW)]

/-- C6 (amended): `exportSelection` raises the no-selection error whenever
the mask has no pixel above the bounds threshold (200); `exportCanvas`
raises the unsupported-format error for every format that is not
case-insensitive png/jpeg, before producing output, and succeeds
otherwise; but `exportSelection` performs no format validation at all —
whenever bounds exist it exports, handing `getMimeType format` of an
arbitrary format string straight to the encoder. -/
theorem export_error_spec :
    (∀ (W H : ℕ) (mask : List RGBA) (format : String), 0 < W →
      (∀ p ∈ mask, p.a ≤ 200) →
      ExportService.exportSelection W H W H mask format =
        Except.error "Failed to export selection: No selection found in mask") ∧
    (∀ format : String, ExportService.isValidFormat format = false →
      ExportService.exportCanvas format =
        Except.error ("Unsupported export format: " ++ format ++
          ". Supported formats: jpeg, png")) ∧
    (∀ format : String, ExportService.isValidFormat format = true →
      ExportService.exportCanvas format = Except.ok (ExportService.getMimeType format)) ∧
    (∀ (W H : ℕ) (mask : List RGBA) (format : String) (b : ℕ × ℕ × ℕ × ℕ),
      ExportService.getSelectionBounds W H mask = some b →
      ExportService.exportSelection W H W H mask format =
        Except.ok (b, ExportService.getMimeType format)) := by
  refine ⟨?_, ?_, ?_, ?_⟩
  · intro W H mask format hW hempty
    unfold ExportService.exportSelection
    rw [if_neg (by simp), getSelectionBounds_empty W H mask hW hempty]
  · intro format hbad
    unfold ExportService.exportCanvas
    rw [if_pos hbad]
  · intro format hgood
    unfold ExportService.exportCanvas
    rw [if_neg (by simp [hgood])]
  · intro W H mask format b hb
    unfold ExportService.exportSelection
    rw [if_neg (by simp), hb]

/-- Witness for C6 (amended) on concrete inputs: an all-transparent
one-pixel mask raises the no-selection error, and the invalid format
"webp" makes `exportCanvas` raise while `exportSelection` on a selected
mask still succeeds. -/
theorem export_error_spec_witness :
    (0 : ℕ) < 1 ∧
    ExportService.exportSelection 1 1 1 1 [⟨0, 0, 0, 0⟩] "png" =
      Except.error "Failed to export selection: No selection found in mask" ∧
    ExportService.exportCanvas "webp" =
      Except.error "Unsupported export format: webp. Supported formats: jpeg, png" ∧
    ExportService.exportSelection 1 1 1 1 [⟨255, 255, 255, 255⟩] "webp" =
      Except.ok ((0, 0, 0, 0), "image/webp") := by
  refine ⟨by decide, ?_, ?_, ?_⟩
  · exact export_error_spec.1 1 1 [⟨0, 0, 0, 0⟩] "png" (by decide)
      (by intro p hp; simp at hp; rw [hp]; decide)
  · exact export_error_spec.2.1 "webp" rfl
  · exact export_error_spec.2.2.2 1 1 [⟨255, 255, 255, 255⟩] "webp" (0, 0, 0, 0) rfl

/-- Claim C6 as stated is false for `exportSelection`: it never validates
its format argument.  With the unsupported format "gif" and a non-empty
mask it does not raise any error, it exports with MIME type "image/gif". -/
theorem exportSelection_no_format_validation :
    ExportService.isValidFormat "gif" = false ∧
    ExportService.exportSelection 1 1 1 1 [⟨255, 255, 255, 255⟩] "gif" =
      Except.ok ((0, 0, 0, 0), "image/gif") := by
  constructor
  · rfl
  · rfl


namespace MagicWandService

/-- A raster as the flood fill reads it: dimensions plus the RGBA pixels
of `getImageData(0, 0, W, H)` in row-major order. -/
structure Raster where
  width : ℕ
  height : ℕ
  data : List RGBA
  deriving DecidableEq, Repr

/-- Pixel fetched at `data[(y*canvasWidth + x) * 4 .. +3]`
(src/unnamed/part_002 line 140). -/
def pixelAt (img : Raster) (x y : ℕ) : RGBA :=
  img.data.getD (y * img.width + x) default

/-- `MagicWandService.colorsWithinTolerance` (part_002 lines 188–201):
`Math.sqrt((Δr)² + (Δg)² + (Δb)²) <= tolerance`, embedded as the
equivalent comparison of the squared distance against the squared
tolerance. -/
def colorsWithinTolerance (r1 g1 b1 : ℕ) (c2 : RGB) (tol : ℕ) : Bool :=
  decide (((r1 : ℤ) - (c2.r : ℤ)) ^ 2 + ((g1 : ℤ) - (c2.g : ℤ)) ^ 2 +
    ((b1 : ℤ) - (c2.b : ℤ)) ^ 2 ≤ (tol : ℤ) ^ 2)

/-- The set of in-bounds pixel coordinates `[0,W) × [0,H)`. -/
def grid (W H : ℕ) : Finset (ℕ × ℕ) := Finset.range W ×ˢ Finset.range H

/-- The 4-directional neighbour candidates of part_002 lines 153–158,
kept when they pass the bounds check of lines 161–162. -/
def neighborsOf (W H x y : ℕ) : List (ℕ × ℕ) :=
  (([((x : ℤ) + 1, (y : ℤ)), ((x : ℤ) - 1, (y : ℤ)),
     ((x : ℤ), (y : ℤ) + 1), ((x : ℤ), (y : ℤ) - 1)]).filter
    (fun p => decide (0 ≤ p.1 ∧ p.1 < (W : ℤ) ∧ 0 ≤ p.2 ∧ p.2 < (H : ℤ)))).map
    (fun p => (p.1.toNat, p.2.toNat))

/-- The neighbour loop of part_002 lines 160–169: each in-bounds
neighbour that is not yet visited is marked visited and appended to the
queue. -/
def enqueueNeighbors (W H x y : ℕ) (visited : Finset (ℕ × ℕ)) :
    Finset (ℕ × ℕ) × List (ℕ × ℕ) :=
  (neighborsOf W H x y).foldl
    (fun acc n => if n ∈ acc.1 then acc else (insert n acc.1, acc.2 ++ [n]))
    (visited, [])

/-- The `while (queue.length > 0)` loop of `MagicWandService.floodFill`
(part_002 lines 138–171).  State: the visited set (the `Uint8Array` of
flags), the FIFO queue, the set of overlay-marked (selected) pixels and
the `selectedPixels` counter.  The JavaScript loop has no fuel; the `ℕ`
budget is the embedding's termination measure, and the development proves
that a budget of `W*H` dequeues always reaches the empty queue, so the
`none` (out-of-fuel) branch never fires from `floodFill`. -/
def floodLoop (img : Raster) (target : RGB) (tol : ℕ) :
    ℕ → Finset (ℕ × ℕ) → List (ℕ × ℕ) → Finset (ℕ × ℕ) → ℕ →
      Option (Finset (ℕ × ℕ) × ℕ)
  | _, _, [], sel, cnt => some (sel, cnt)
  | 0, _, _ :: _, _, _ => none
  | fuel + 1, visited, (x, y) :: rest, sel, cnt =>
    if colorsWithinTolerance (pixelAt img x y).r (pixelAt img x y).g (pixelAt img x y).b
        target tol = true then
      floodLoop img target tol fuel (enqueueNeighbors img.width img.height x y visited).1
        (rest ++ (enqueueNeighbors img.width img.height x y visited).2)
        (insert (x, y) sel) (cnt + 1)
    else
      floodLoop img target tol fuel visited rest sel cnt

/-- `MagicWandService.floodFill` (part_002 lines 116–177): the starting
point is marked visited and enqueued (lines 132–135) and the loop runs;
the result is the set of selected pixels and the returned
`selectedPixels` count. -/
def floodFill (img : Raster) (startX startY : ℕ) (target : RGB) (tol : ℕ) :
    Option (Finset (ℕ × ℕ) × ℕ) :=
  floodLoop img target tol (img.width * img.height)
    {(startX, startY)} [(startX, startY)] ∅ 0

end MagicWandService

/-- Membership in the in-bounds coordinate set. -/
lemma mem_grid (W H : ℕ) (p : ℕ × ℕ) :
    p ∈ MagicWandService.grid W H ↔ p.1 < W ∧ p.2 < H := by
  unfold MagicWandService.grid
  simp [Finset.mem_product]

/-- The in-bounds coordinate set has exactly `W*H` elements. -/
lemma card_grid (W H : ℕ) : (MagicWandService.grid W H).card = W * H := by
  unfold MagicWandService.grid
  simp

/-- Characterization of the 4-neighbour list. -/
lemma mem_neighborsOf (W H x y : ℕ) (p : ℕ × ℕ) :
    p ∈ MagicWandService.neighborsOf W H x y ↔
      p.1 < W ∧ p.2 < H ∧
        ((p.1 = x + 1 ∧ p.2 = y) ∨ (x = p.1 + 1 ∧ p.2 = y) ∨
         (p.1 = x ∧ p.2 = y + 1) ∨ (p.1 = x ∧ y = p.2 + 1)) := by
  obtain ⟨a, b⟩ := p
  unfold MagicWandService.neighborsOf
  simp only [List.mem_map, List.mem_filter, List.mem_cons, List.not_mem_nil, or_false,
    decide_eq_true_eq]
  constructor
  · rintro ⟨⟨qx, qy⟩, ⟨hq, h0, h1, h2, h3⟩, hmap⟩
    simp only [Prod.mk.injEq] at hmap hq
    rcases hq with ⟨e1, e2⟩ | ⟨e1, e2⟩ | ⟨e1, e2⟩ | ⟨e1, e2⟩ <;>
      (subst e1; subst e2; refine ⟨by omega, by omega, ?_⟩)
    · left; omega
    · right; left; omega
    · right; right; left; omega
    · right; right; right; omega
  · rintro ⟨ha, hb, hcase⟩
    rcases hcase with ⟨e1, e2⟩ | ⟨e1, e2⟩ | ⟨e1, e2⟩ | ⟨e1, e2⟩
    · exact ⟨((x : ℤ) + 1, (y : ℤ)), ⟨Or.inl rfl, by omega, by omega, by omega, by omega⟩,
        by simp only [Prod.mk.injEq]; omega⟩
    · exact ⟨((x : ℤ) - 1, (y : ℤ)), ⟨Or.inr (Or.inl rfl), by omega, by omega, by omega,
        by omega⟩, by simp only [Prod.mk.injEq]; omega⟩
    · exact ⟨((x : ℤ), (y : ℤ) + 1), ⟨Or.inr (Or.inr (Or.inl rfl)), by omega, by omega,
        by omega, by omega⟩, by simp only [Prod.mk.injEq]; omega⟩
    · exact ⟨((x : ℤ), (y : ℤ) - 1), ⟨Or.inr (Or.inr (Or.inr rfl)), by omega, by omega,
        by omega, by omega⟩, by simp only [Prod.mk.injEq]; omega⟩

/-- Every kept neighbour is in bounds. -/
lemma neighborsOf_subset_grid (W H x y : ℕ) :
    ∀ p ∈ MagicWandService.neighborsOf W H x y, p ∈ MagicWandService.grid W H := by
  intro p hp
  rw [mem_neighborsOf] at hp
  rw [mem_grid]
  exact ⟨hp.1, hp.2.1⟩


/-- Exact description of the visited/queue fold of the neighbour loop:
it adds a duplicate-free batch of previously unvisited elements of the
scanned list to both the visited set and the queue, and afterwards every
scanned element is visited. -/
lemma enqueue_fold_spec :
    ∀ (l : List (ℕ × ℕ)) (v : Finset (ℕ × ℕ)) (q : List (ℕ × ℕ)),
      ∃ new : List (ℕ × ℕ),
        l.foldl (fun acc n => if n ∈ acc.1 then acc else (insert n acc.1, acc.2 ++ [n]))
            (v, q) = (v ∪ new.toFinset, q ++ new) ∧
        new.Nodup ∧
        (∀ p ∈ new, p ∈ l ∧ p ∉ v) ∧
        (∀ p ∈ l, p ∈ v ∪ new.toFinset) := by
  intro l
  induction l with
  | nil =>
    intro v q
    exact ⟨[], by simp, by simp, by simp, by simp⟩
  | cons n t ih =>
    intro v q
    by_cases hn : n ∈ v
    · obtain ⟨new, hfold, hnd, hmem, hall⟩ := ih v q
      refine ⟨new, ?_, hnd, ?_, ?_⟩
      · rw [List.foldl_cons, if_pos hn]
        exact hfold
      · intro p hp
        exact ⟨List.mem_cons_of_mem n (hmem p hp).1, (hmem p hp).2⟩
      · intro p hp
        rcases List.mem_cons.mp hp with hpn | hpt
        · subst hpn
          exact Finset.mem_union_left _ hn
        · exact hall p hpt
    · obtain ⟨new, hfold, hnd, hmem, hall⟩ := ih (insert n v) (q ++ [n])
      refine ⟨n :: new, ?_, ?_, ?_, ?_⟩
      · rw [List.foldl_cons, if_neg hn, hfold]
        refine Prod.ext ?_ ?_
        · show insert n v ∪ new.toFinset = v ∪ (n :: new).toFinset
          ext p
          simp only [Finset.mem_union, Finset.mem_insert, List.toFinset_cons, List.mem_toFinset]
          tauto
        · show (q ++ [n]) ++ new = q ++ n :: new
          rw [List.append_assoc, List.singleton_append]
      · rw [List.nodup_cons]
        refine ⟨?_, hnd⟩
        intro hnn
        exact (hmem n hnn).2 (Finset.mem_insert_self n v)
      · intro p hp
        rcases List.mem_cons.mp hp with hpn | hpnew
        · subst hpn
          exact ⟨List.mem_cons_self p t, hn⟩
        · refine ⟨List.mem_cons_of_mem n (hmem p hpnew).1, ?_⟩
          intro hpv
          exact (hmem p hpnew).2 (Finset.mem_insert_of_mem hpv)
      · intro p hp
        rcases List.mem_cons.mp hp with hpn | hpt
        · subst hpn
          apply Finset.mem_union_right
          simp
        · have := hall p hpt
          rcases Finset.mem_union.mp this with hv | hnew
          · rcases Finset.mem_insert.mp hv with hpn | hpv
            · subst hpn
              apply Finset.mem_union_right
              simp
            · exact Finset.mem_union_left _ hpv
          · apply Finset.mem_union_right
            rw [List.mem_toFinset] at hnew
            simp [hnew]

/-- Adding a duplicate-free batch of fresh in-bounds elements to the
visited set shrinks the unvisited part by exactly the batch length. -/
lemma enqueue_fold_card (g v : Finset (ℕ × ℕ)) (new : List (ℕ × ℕ))
    (hnd : new.Nodup) (hsub : ∀ p ∈ new, p ∈ g) (hdis : ∀ p ∈ new, p ∉ v) :
    (g \ (v ∪ new.toFinset)).card + new.length = (g \ v).card := by
  have h1 : g \ (v ∪ new.toFinset) = (g \ v) \ new.toFinset := by
    ext p
    simp only [Finset.mem_sdiff, Finset.mem_union]
    tauto
  have h2 : new.toFinset ⊆ g \ v := by
    intro p hp
    rw [List.mem_toFinset] at hp
    rw [Finset.mem_sdiff]
    exact ⟨hsub p hp, hdis p hp⟩
  have h3 : new.toFinset.card = new.length := List.toFinset_card_of_nodup hnd
  rw [h1, Finset.card_sdiff h2, h3]
  have h4 := Finset.card_le_card h2
  omega

/-- Packaged description of `enqueueNeighbors`. -/
lemma enqueueNeighbors_spec (W H x y : ℕ) (v : Finset (ℕ × ℕ)) :
    ∃ new, MagicWandService.enqueueNeighbors W H x y v = (v ∪ new.toFinset, new) ∧
      new.Nodup ∧
      (∀ p ∈ new, p ∈ MagicWandService.neighborsOf W H x y ∧ p ∉ v) ∧
      (∀ p ∈ MagicWandService.neighborsOf W H x y, p ∈ v ∪ new.toFinset) := by
  obtain ⟨new, h1, h2, h3, h4⟩ := enqueue_fold_spec (MagicWandService.neighborsOf W H x y) v []
  refine ⟨new, ?_, h2, h3, h4⟩
  unfold MagicWandService.enqueueNeighbors
  rw [h1]
  simp


/-- Unfolding of the loop at an empty queue. -/
lemma floodLoop_nil (img : MagicWandService.Raster) (target : RGB) (tol fuel : ℕ)
    (v s : Finset (ℕ × ℕ)) (c : ℕ) :
    MagicWandService.floodLoop img target tol fuel v [] s c = some (s, c) := by
  cases fuel <;> rfl

/-- Unfolding of one dequeue step of the loop. -/
lemma floodLoop_cons (img : MagicWandService.Raster) (target : RGB) (tol fuel : ℕ)
    (v s : Finset (ℕ × ℕ)) (c x y : ℕ) (rest : List (ℕ × ℕ)) :
    MagicWandService.floodLoop img target tol (fuel + 1) v ((x, y) :: rest) s c =
      if MagicWandService.colorsWithinTolerance (MagicWandService.pixelAt img x y).r
          (MagicWandService.pixelAt img x y).g (MagicWandService.pixelAt img x y).b
          target tol = true then
        MagicWandService.floodLoop img target tol fuel
          (MagicWandService.enqueueNeighbors img.width img.height x y v).1
          (rest ++ (MagicWandService.enqueueNeighbors img.width img.height x y v).2)
          (insert (x, y) s) (c + 1)
      else
        MagicWandService.floodLoop img target tol fuel v rest s c := rfl

/-- With enough fuel (the number of still unvisited in-bounds pixels plus
the queue length) the loop always reaches the empty queue; the visited
flags guarantee every pixel is enqueued at most once, the selected set
stays in bounds and the counter counts it exactly. -/
lemma floodLoop_terminates (img : MagicWandService.Raster) (target : RGB) (tol : ℕ) :
    ∀ (fuel : ℕ) (v : Finset (ℕ × ℕ)) (q : List (ℕ × ℕ)) (s : Finset (ℕ × ℕ)) (c : ℕ),
      (MagicWandService.grid img.width img.height \ v).card + q.length ≤ fuel →
      q.Nodup → (∀ p ∈ q, p ∈ v) → s ⊆ v → (∀ p ∈ q, p ∉ s) → c = s.card →
      v ⊆ MagicWandService.grid img.width img.height →
      ∃ s' c', MagicWandService.floodLoop img target tol fuel v q s c = some (s', c') ∧
        s ⊆ s' ∧ s' ⊆ MagicWandService.grid img.width img.height ∧ c' = s'.card := by
  intro fuel
  induction fuel with
  | zero =>
    intro v q s c hfuel hnd hqv hsv hqs hc hvg
    have hq : q = [] := List.length_eq_zero.mp (by omega)
    subst hq
    exact ⟨s, c, floodLoop_nil img target tol 0 v s c, Finset.Subset.refl s,
      hsv.trans hvg, hc⟩
  | succ fuel ih =>
    intro v q s c hfuel hnd hqv hsv hqs hc hvg
    cases q with
    | nil =>
      exact ⟨s, c, floodLoop_nil img target tol _ v s c, Finset.Subset.refl s,
        hsv.trans hvg, hc⟩
    | cons hd rest =>
      obtain ⟨x, y⟩ := hd
      have hxyv : (x, y) ∈ v := hqv _ (List.mem_cons_self _ _)
      have hxys : (x, y) ∉ s := hqs _ (List.mem_cons_self _ _)
      have hndr : rest.Nodup := (List.nodup_cons.mp hnd).2
      have hxyrest : (x, y) ∉ rest := (List.nodup_cons.mp hnd).1
      by_cases hcheck : MagicWandService.colorsWithinTolerance
          (MagicWandService.pixelAt img x y).r (MagicWandService.pixelAt img x y).g
          (MagicWandService.pixelAt img x y).b target tol = true
      · obtain ⟨new, henq, hnd2, hmem2, hall2⟩ :=
          enqueueNeighbors_spec img.width img.height x y v
        have hnewg : ∀ p ∈ new, p ∈ MagicWandService.grid img.width img.height :=
          fun p hp => neighborsOf_subset_grid _ _ _ _ p (hmem2 p hp).1
        have hcard := enqueue_fold_card (MagicWandService.grid img.width img.height) v new
          hnd2 hnewg (fun p hp => (hmem2 p hp).2)
        have hstep := ih (v ∪ new.toFinset) (rest ++ new) (insert (x, y) s) (c + 1)
          (by
            rw [List.length_append]
            have : (rest ++ new).length ≤ rest.length + new.length := by
              rw [List.length_append]
            simp only [List.length_cons] at hfuel
            omega)
          (by
            rw [List.nodup_append]
            refine ⟨hndr, hnd2, ?_⟩
            intro p hp hq'
            exact (hmem2 p hq').2 (hqv p (List.mem_cons_of_mem _ hp)))
          (by
            intro p hp
            rcases List.mem_append.mp hp with h | h
            · exact Finset.mem_union_left _ (hqv p (List.mem_cons_of_mem _ h))
            · apply Finset.mem_union_right
              rw [List.mem_toFinset]
              exact h)
          (by
            intro p hp
            rcases Finset.mem_insert.mp hp with h | h
            · subst h
              exact Finset.mem_union_left _ hxyv
            · exact Finset.mem_union_left _ (hsv h))
          (by
            intro p hp
            rcases List.mem_append.mp hp with h | h
            · intro hps
              rcases Finset.mem_insert.mp hps with h' | h'
              · exact hxyrest (h' ▸ h)
              · exact hqs p (List.mem_cons_of_mem _ h) h'
            · intro hps
              rcases Finset.mem_insert.mp hps with h' | h'
              · exact (hmem2 p h).2 (h' ▸ hxyv)
              · exact (hmem2 p h).2 (hsv h'))
          (by rw [Finset.card_insert_of_not_mem hxys, hc])
          (by
            intro p hp
            rcases Finset.mem_union.mp hp with h | h
            · exact hvg h
            · rw [List.mem_toFinset] at h
              exact hnewg p h)
        obtain ⟨s', c', hrun, hss, hsg, hcc⟩ := hstep
        refine ⟨s', c', ?_, ?_, hsg, hcc⟩
        · rw [floodLoop_cons, if_pos hcheck, henq]
          exact hrun
        · exact (Finset.subset_insert _ s).trans hss
      · have hstep := ih v rest s c
          (by simp only [List.length_cons] at hfuel; omega)
          hndr (fun p hp => hqv p (List.mem_cons_of_mem _ hp)) hsv
          (fun p hp => hqs p (List.mem_cons_of_mem _ hp)) hc hvg
        obtain ⟨s', c', hrun, hss, hsg, hcc⟩ := hstep
        refine ⟨s', c', ?_, hss, hsg, hcc⟩
        rw [floodLoop_cons, if_neg hcheck]
        exact hrun


/-- C10: for every raster and in-bounds seed the flood-fill BFS
terminates within the `W*H` dequeue budget (each pixel is enqueued at most
once thanks to the visited flags), and the returned selected-pixel count
equals the number of distinct selected pixels, is at most `W*H`, and every
selected pixel lies inside `[0,W) × [0,H)`. -/
theorem floodFill_terminates_bounded (img : MagicWandService.Raster) (target : RGB)
    (tol sx sy : ℕ) (hx : sx < img.width) (hy : sy < img.height) :
    ∃ sel cnt, MagicWandService.floodFill img sx sy target tol = some (sel, cnt) ∧
      cnt = sel.card ∧ cnt ≤ img.width * img.height ∧
      ∀ p ∈ sel, p.1 < img.width ∧ p.2 < img.height := by
  have hseed : (sx, sy) ∈ MagicWandService.grid img.width img.height := by
    rw [mem_grid]
    exact ⟨hx, hy⟩
  have hsub : ({(sx, sy)} : Finset (ℕ × ℕ)) ⊆ MagicWandService.grid img.width img.height := by
    intro p hp
    rw [Finset.mem_singleton] at hp
    exact hp ▸ hseed
  have hcards : (MagicWandService.grid img.width img.height \ {(sx, sy)}).card =
      img.width * img.height - 1 := by
    rw [Finset.card_sdiff hsub, Finset.card_singleton, card_grid]
  have hpos : 1 ≤ img.width * img.height := by
    have := Finset.card_pos.mpr ⟨(sx, sy), hseed⟩
    rw [card_grid] at this
    omega
  obtain ⟨s', c', hrun, _, hsg, hcc⟩ := floodLoop_terminates img target tol
    (img.width * img.height) {(sx, sy)} [(sx, sy)] ∅ 0
    (by simp only [List.length_singleton]; omega)
    (by simp)
    (by intro p hp; simp at hp; simp [hp])
    (Finset.empty_subset _)
    (by intro p _; simp)
    (by simp)
    hsub
  refine ⟨s', c', hrun, hcc, ?_, ?_⟩
  · have := Finset.card_le_card hsg
    rw [card_grid] at this
    omega
  · intro p hp
    have := hsg hp
    rw [mem_grid] at this
    exact this

/-- Witness for C10 on a concrete 2×1 raster with seed (0,0). -/
theorem floodFill_terminates_bounded_witness :
    (0 : ℕ) < 2 ∧ (0 : ℕ) < 1 ∧
    ∃ sel cnt, MagicWandService.floodFill ⟨2, 1, [⟨0, 0, 0, 255⟩, ⟨9, 9, 9, 255⟩]⟩ 0 0
        ⟨0, 0, 0⟩ 30 = some (sel, cnt) ∧
      cnt = sel.card ∧ cnt ≤ 2 * 1 ∧ ∀ p ∈ sel, p.1 < 2 ∧ p.2 < 1 := by
  refine ⟨by decide, by decide, ?_⟩
  exact floodFill_terminates_bounded ⟨2, 1, [⟨0, 0, 0, 255⟩, ⟨9, 9, 9, 255⟩]⟩ ⟨0, 0, 0⟩ 30 0 0
    (by decide) (by decide)


/-- When every in-bounds pixel passes the tolerance test, the loop turns
the whole visited set into selected pixels and finishes with a selected
set closed under in-bounds neighbours. -/
lemma floodLoop_allpass (img : MagicWandService.Raster) (target : RGB) (tol : ℕ)
    (hpass : ∀ p ∈ MagicWandService.grid img.width img.height,
      MagicWandService.colorsWithinTolerance (MagicWandService.pixelAt img p.1 p.2).r
        (MagicWandService.pixelAt img p.1 p.2).g (MagicWandService.pixelAt img p.1 p.2).b
        target tol = true) :
    ∀ (fuel : ℕ) (v : Finset (ℕ × ℕ)) (q : List (ℕ × ℕ)) (s : Finset (ℕ × ℕ)) (c : ℕ),
      (MagicWandService.grid img.width img.height \ v).card + q.length ≤ fuel →
      q.Nodup → v = s ∪ q.toFinset → (∀ p ∈ q, p ∉ s) → c = s.card →
      v ⊆ MagicWandService.grid img.width img.height →
      (∀ p ∈ s, ∀ n ∈ MagicWandService.neighborsOf img.width img.height p.1 p.2, n ∈ v) →
      ∃ s', MagicWandService.floodLoop img target tol fuel v q s c = some (s', s'.card) ∧
        v ⊆ s' ∧ s' ⊆ MagicWandService.grid img.width img.height ∧
        (∀ p ∈ s', ∀ n ∈ MagicWandService.neighborsOf img.width img.height p.1 p.2,
          n ∈ s') := by
  intro fuel
  induction fuel with
  | zero =>
    intro v q s c hfuel hnd hvsq hqs hc hvg hclosed
    have hq : q = [] := List.length_eq_zero.mp (by omega)
    subst hq
    have hvs : v = s := by
      rw [hvsq]
      simp
    subst hc
    refine ⟨s, floodLoop_nil img target tol 0 v s _, hvs ▸ Finset.Subset.refl s,
      hvs ▸ hvg, ?_⟩
    intro p hp n hn
    have := hclosed p hp n hn
    rw [hvs] at this
    exact this
  | succ fuel ih =>
    intro v q s c hfuel hnd hvsq hqs hc hvg hclosed
    cases q with
    | nil =>
      have hvs : v = s := by
        rw [hvsq]
        simp
      subst hc
      refine ⟨s, floodLoop_nil img target tol _ v s _, hvs ▸ Finset.Subset.refl s,
        hvs ▸ hvg, ?_⟩
      intro p hp n hn
      have := hclosed p hp n hn
      rw [hvs] at this
      exact this
    | cons hd rest =>
      obtain ⟨x, y⟩ := hd
      have hxyq : (x, y) ∈ ((x, y) :: rest : List (ℕ × ℕ)) := List.mem_cons_self _ _
      have hxyv : (x, y) ∈ v := by
        rw [hvsq]
        apply Finset.mem_union_right
        rw [List.mem_toFinset]
        exact hxyq
      have hrestv : ∀ p ∈ rest, p ∈ v := by
        intro p hp
        rw [hvsq]
        apply Finset.mem_union_right
        rw [List.mem_toFinset]
        exact List.mem_cons_of_mem _ hp
      have hxyg : (x, y) ∈ MagicWandService.grid img.width img.height := hvg hxyv
      have hxys : (x, y) ∉ s := hqs _ hxyq
      have hndr : rest.Nodup := (List.nodup_cons.mp hnd).2
      have hxyrest : (x, y) ∉ rest := (List.nodup_cons.mp hnd).1
      have hcheck : MagicWandService.colorsWithinTolerance
          (MagicWandService.pixelAt img x y).r (MagicWandService.pixelAt img x y).g
          (MagicWandService.pixelAt img x y).b target tol = true := hpass (x, y) hxyg
      obtain ⟨new, henq, hnd2, hmem2, hall2⟩ :=
        enqueueNeighbors_spec img.width img.height x y v
      have hnewg : ∀ p ∈ new, p ∈ MagicWandService.grid img.width img.height :=
        fun p hp => neighborsOf_subset_grid _ _ _ _ p (hmem2 p hp).1
      have hcard := enqueue_fold_card (MagicWandService.grid img.width img.height) v new
        hnd2 hnewg (fun p hp => (hmem2 p hp).2)
      have hstep := ih (v ∪ new.toFinset) (rest ++ new) (insert (x, y) s) (c + 1)
        (by
          rw [List.length_append]
          simp only [List.length_cons] at hfuel
          omega)
        (by
          rw [List.nodup_append]
          refine ⟨hndr, hnd2, ?_⟩
          intro p hp hq'
          exact (hmem2 p hq').2 (hrestv p hp))
        (by
          rw [hvsq]
          ext p
          simp only [Finset.mem_union, Finset.mem_insert, List.toFinset_append,
            List.toFinset_cons, List.mem_toFinset]
          tauto)
        (by
          intro p hp
          rcases List.mem_append.mp hp with h | h
          · intro hps
            rcases Finset.mem_insert.mp hps with h' | h'
            · exact hxyrest (h' ▸ h)
            · exact hqs p (List.mem_cons_of_mem _ h) h'
          · intro hps
            rcases Finset.mem_insert.mp hps with h' | h'
            · exact (hmem2 p h).2 (h' ▸ hxyv)
            · exact (hmem2 p h).2 (by rw [hvsq]; exact Finset.mem_union_left _ h'))
        (by rw [Finset.card_insert_of_not_mem hxys, hc])
        (by
          intro p hp
          rcases Finset.mem_union.mp hp with h | h
          · exact hvg h
          · rw [List.mem_toFinset] at h
            exact hnewg p h)
        (by
          intro p hp n hn
          rcases Finset.mem_insert.mp hp with h | h
          · subst h
            exact hall2 n hn
          · exact Finset.mem_union_left _ (hclosed p h n hn))
      obtain ⟨s', hrun, hss, hsg, hcl⟩ := hstep
      refine ⟨s', ?_, ?_, hsg, hcl⟩
      · rw [floodLoop_cons, if_pos hcheck, henq]
        exact hrun
      · exact (Finset.subset_union_left).trans hss


/-- A set of in-bounds pixels that contains a seed and is closed under
in-bounds 4-neighbours is the whole grid (the pixel grid is
4-connected). -/
lemma closed_seed_set_eq_grid (W H sx sy : ℕ) (S : Finset (ℕ × ℕ))
    (_hx : sx < W) (_hy : sy < H) (hseed : (sx, sy) ∈ S)
    (hsub : S ⊆ MagicWandService.grid W H)
    (hclosed : ∀ p ∈ S, ∀ n ∈ MagicWandService.neighborsOf W H p.1 p.2, n ∈ S) :
    S = MagicWandService.grid W H := by
  have hstep_right : ∀ a b : ℕ, (a, b) ∈ S → a + 1 < W → (a + 1, b) ∈ S := by
    intro a b hab ha
    have hbw := (mem_grid W H (a, b)).mp (hsub hab)
    apply hclosed _ hab
    rw [mem_neighborsOf]
    exact ⟨ha, hbw.2, Or.inl ⟨rfl, rfl⟩⟩
  have hstep_left : ∀ a b : ℕ, (a + 1, b) ∈ S → (a, b) ∈ S := by
    intro a b hab
    have hbw := (mem_grid W H (a + 1, b)).mp (hsub hab)
    apply hclosed _ hab
    rw [mem_neighborsOf]
    exact ⟨by omega, hbw.2, Or.inr (Or.inl ⟨rfl, rfl⟩)⟩
  have hstep_down : ∀ a b : ℕ, (a, b) ∈ S → b + 1 < H → (a, b + 1) ∈ S := by
    intro a b hab hb
    have hbw := (mem_grid W H (a, b)).mp (hsub hab)
    apply hclosed _ hab
    rw [mem_neighborsOf]
    exact ⟨hbw.1, hb, Or.inr (Or.inr (Or.inl ⟨rfl, rfl⟩))⟩
  have hstep_up : ∀ a b : ℕ, (a, b + 1) ∈ S → (a, b) ∈ S := by
    intro a b hab
    have hbw := (mem_grid W H (a, b + 1)).mp (hsub hab)
    apply hclosed _ hab
    rw [mem_neighborsOf]
    exact ⟨hbw.1, by omega, Or.inr (Or.inr (Or.inr ⟨rfl, rfl⟩))⟩
  have hcol : ∀ b : ℕ, b < H → (sx, b) ∈ S := by
    have hup : ∀ d : ℕ, sy + d < H → (sx, sy + d) ∈ S := by
      intro d
      induction d with
      | zero => intro _; simpa using hseed
      | succ k ihk =>
        intro hk
        have h1 : (sx, sy + k) ∈ S := ihk (by omega)
        have := hstep_down sx (sy + k) h1 (by omega)
        exact this
    have hdown : ∀ d : ℕ, d ≤ sy → (sx, sy - d) ∈ S := by
      intro d
      induction d with
      | zero => intro _; simpa using hseed
      | succ k ihk =>
        intro hk
        have h1 : (sx, sy - k) ∈ S := ihk (by omega)
        have heq : sy - k = (sy - (k + 1)) + 1 := by omega
        rw [heq] at h1
        exact hstep_up sx (sy - (k + 1)) h1
    intro b hb
    by_cases hby : sy ≤ b
    · have := hup (b - sy) (by omega)
      have heq : sy + (b - sy) = b := by omega
      rw [heq] at this
      exact this
    · have := hdown (sy - b) (by omega)
      have heq : sy - (sy - b) = b := by omega
      rw [heq] at this
      exact this
  have hcell : ∀ a b : ℕ, a < W → b < H → (a, b) ∈ S := by
    intro a b ha hb
    have hstart : (sx, b) ∈ S := hcol b hb
    have hright : ∀ d : ℕ, sx + d < W → (sx + d, b) ∈ S := by
      intro d
      induction d with
      | zero => intro _; simpa using hstart
      | succ k ihk =>
        intro hk
        have h1 : (sx + k, b) ∈ S := ihk (by omega)
        have := hstep_right (sx + k) b h1 (by omega)
        exact this
    have hleft : ∀ d : ℕ, d ≤ sx → (sx - d, b) ∈ S := by
      intro d
      induction d with
      | zero => intro _; simpa using hstart
      | succ k ihk =>
        intro hk
        have h1 : (sx - k, b) ∈ S := ihk (by omega)
        have heq : sx - k = (sx - (k + 1)) + 1 := by omega
        rw [heq] at h1
        exact hstep_left (sx - (k + 1)) b h1
    by_cases hax : sx ≤ a
    · have := hright (a - sx) (by omega)
      have heq : sx + (a - sx) = a := by omega
      rw [heq] at this
      exact this
    · have := hleft (sx - a) (by omega)
      have heq : sx - (sx - a) = a := by omega
      rw [heq] at this
      exact this
  apply Finset.Subset.antisymm hsub
  intro p hp
  obtain ⟨a, b⟩ := p
  have := (mem_grid W H (a, b)).mp hp
  exact hcell a b this.1 this.2

/-- When every in-bounds pixel passes the tolerance test against the
target colour, the flood fill from any in-bounds seed selects the whole
raster and counts all `W*H` pixels. -/
lemma floodFill_selects_all (img : MagicWandService.Raster) (target : RGB)
    (tol sx sy : ℕ) (hx : sx < img.width) (hy : sy < img.height)
    (hpass : ∀ p ∈ MagicWandService.grid img.width img.height,
      MagicWandService.colorsWithinTolerance (MagicWandService.pixelAt img p.1 p.2).r
        (MagicWandService.pixelAt img p.1 p.2).g (MagicWandService.pixelAt img p.1 p.2).b
        target tol = true) :
    MagicWandService.floodFill img sx sy target tol =
      some (MagicWandService.grid img.width img.height, img.width * img.height) := by
  have hseed : (sx, sy) ∈ MagicWandService.grid img.width img.height := by
    rw [mem_grid]
    exact ⟨hx, hy⟩
  have hsub : ({(sx, sy)} : Finset (ℕ × ℕ)) ⊆ MagicWandService.grid img.width img.height := by
    intro p hp
    rw [Finset.mem_singleton] at hp
    exact hp ▸ hseed
  have hcards : (MagicWandService.grid img.width img.height \ {(sx, sy)}).card =
      img.width * img.height - 1 := by
    rw [Finset.card_sdiff hsub, Finset.card_singleton, card_grid]
  have hpos : 1 ≤ img.width * img.height := by
    have := Finset.card_pos.mpr ⟨(sx, sy), hseed⟩
    rw [card_grid] at this
    omega
  obtain ⟨s', hrun, hvs, hsg, hcl⟩ := floodLoop_allpass img target tol hpass
    (img.width * img.height) {(sx, sy)} [(sx, sy)] ∅ 0
    (by simp only [List.length_singleton]; omega)
    (by simp)
    (by simp)
    (by intro p _; simp)
    (by simp)
    hsub
    (by intro p hp; simp at hp)
  have hs'seed : (sx, sy) ∈ s' := hvs (Finset.mem_singleton_self _)
  have hs'grid : s' = MagicWandService.grid img.width img.height :=
    closed_seed_set_eq_grid img.width img.height sx sy s' hx hy hs'seed hsg hcl
  unfold MagicWandService.floodFill
  rw [hrun, hs'grid, card_grid]


/-- A queue of pixels that all fail the tolerance test is drained without
selecting anything, provided the fuel covers the queue. -/
lemma floodLoop_allfail (img : MagicWandService.Raster) (target : RGB) (tol : ℕ) :
    ∀ (q : List (ℕ × ℕ)) (fuel : ℕ) (v s : Finset (ℕ × ℕ)) (c : ℕ),
      q.length ≤ fuel →
      (∀ p ∈ q, MagicWandService.colorsWithinTolerance
        (MagicWandService.pixelAt img p.1 p.2).r (MagicWandService.pixelAt img p.1 p.2).g
        (MagicWandService.pixelAt img p.1 p.2).b target tol = false) →
      MagicWandService.floodLoop img target tol fuel v q s c = some (s, c) := by
  intro q
  induction q with
  | nil =>
    intro fuel v s c _ _
    exact floodLoop_nil img target tol fuel v s c
  | cons hd rest ih =>
    intro fuel v s c hfuel hfail
    cases fuel with
    | zero => simp at hfuel
    | succ k =>
      obtain ⟨x, y⟩ := hd
      rw [floodLoop_cons]
      have hf := hfail (x, y) (List.mem_cons_self _ _)
      rw [hf]
      rw [if_neg (by simp)]
      exact ih k v s c (by simpa using hfuel)
        (fun p hp => hfail p (List.mem_cons_of_mem _ hp))

/-- If two colours differ in some channel, they are not within tolerance
0 of each other. -/
lemma colors_ne_fail (r1 g1 b1 r2 g2 b2 : ℕ)
    (h : ¬ (r1 = r2 ∧ g1 = g2 ∧ b1 = b2)) :
    MagicWandService.colorsWithinTolerance r1 g1 b1 ⟨r2, g2, b2⟩ 0 = false := by
  unfold MagicWandService.colorsWithinTolerance
  rw [decide_eq_false_iff_not]
  intro hle
  apply h
  have h1 : (0 : ℤ) ≤ ((r1 : ℤ) - r2) ^ 2 := sq_nonneg _
  have h2 : (0 : ℤ) ≤ ((g1 : ℤ) - g2) ^ 2 := sq_nonneg _
  have h3 : (0 : ℤ) ≤ ((b1 : ℤ) - b2) ^ 2 := sq_nonneg _
  have hz : (((0 : ℕ) : ℤ)) ^ 2 = 0 := by norm_num
  rw [hz] at hle
  have e1 : ((r1 : ℤ) - r2) ^ 2 = 0 := by linarith
  have e2 : ((g1 : ℤ) - g2) ^ 2 = 0 := by linarith
  have e3 : ((b1 : ℤ) - b2) ^ 2 = 0 := by linarith
  have d1 : (r1 : ℤ) - r2 = 0 := by
    exact pow_eq_zero_iff (by norm_num) |>.mp e1
  have d2 : (g1 : ℤ) - g2 = 0 := by
    exact pow_eq_zero_iff (by norm_num) |>.mp e2
  have d3 : (b1 : ℤ) - b2 = 0 := by
    exact pow_eq_zero_iff (by norm_num) |>.mp e3
  refine ⟨?_, ?_, ?_⟩ <;> omega

/-- C4: flood fill at tolerance 0 on a raster whose pixels all share one
RGB colour selects exactly all `W*H` pixels from any in-bounds seed; and
at tolerance 0 a seed whose colour differs from each of its in-bounds
4-neighbours (so each is at RGB distance > 0) selects exactly the seed
pixel, counting 1. -/
theorem floodFill_tolerance_zero_spec :
    (∀ (img : MagicWandService.Raster) (c : RGB) (sx sy : ℕ),
      sx < img.width → sy < img.height →
      (∀ x y : ℕ, x < img.width → y < img.height →
        (MagicWandService.pixelAt img x y).r = c.r ∧
        (MagicWandService.pixelAt img x y).g = c.g ∧
        (MagicWandService.pixelAt img x y).b = c.b) →
      MagicWandService.floodFill img sx sy c 0 =
        some (MagicWandService.grid img.width img.height, img.width * img.height)) ∧
    (∀ (img : MagicWandService.Raster) (sx sy : ℕ),
      sx < img.width → sy < img.height →
      (∀ n ∈ MagicWandService.neighborsOf img.width img.height sx sy,
        ¬ ((MagicWandService.pixelAt img n.1 n.2).r = (MagicWandService.pixelAt img sx sy).r ∧
           (MagicWandService.pixelAt img n.1 n.2).g = (MagicWandService.pixelAt img sx sy).g ∧
           (MagicWandService.pixelAt img n.1 n.2).b = (MagicWandService.pixelAt img sx sy).b)) →
      MagicWandService.floodFill img sx sy
        ⟨(MagicWandService.pixelAt img sx sy).r, (MagicWandService.pixelAt img sx sy).g,
         (MagicWandService.pixelAt img sx sy).b⟩ 0 = some ({(sx, sy)}, 1)) := by
  constructor
  · intro img c sx sy hx hy huni
    apply floodFill_selects_all img c 0 sx sy hx hy
    intro p hp
    rw [mem_grid] at hp
    obtain ⟨h1, h2, h3⟩ := huni p.1 p.2 hp.1 hp.2
    unfold MagicWandService.colorsWithinTolerance
    rw [h1, h2, h3]
    simp
  · intro img sx sy hx hy hdiff
    have hseed : (sx, sy) ∈ MagicWandService.grid img.width img.height := by
      rw [mem_grid]
      exact ⟨hx, hy⟩
    have hsub : ({(sx, sy)} : Finset (ℕ × ℕ)) ⊆
        MagicWandService.grid img.width img.height := by
      intro p hp
      rw [Finset.mem_singleton] at hp
      exact hp ▸ hseed
    have hcards : (MagicWandService.grid img.width img.height \ {(sx, sy)}).card =
        img.width * img.height - 1 := by
      rw [Finset.card_sdiff hsub, Finset.card_singleton, card_grid]
    have hpos : 1 ≤ img.width * img.height := by
      have := Finset.card_pos.mpr ⟨(sx, sy), hseed⟩
      rw [card_grid] at this
      omega
    obtain ⟨new, henq, hnd2, hmem2, hall2⟩ :=
      enqueueNeighbors_spec img.width img.height sx sy {(sx, sy)}
    have hnewg : ∀ p ∈ new, p ∈ MagicWandService.grid img.width img.height :=
      fun p hp => neighborsOf_subset_grid _ _ _ _ p (hmem2 p hp).1
    have hcard := enqueue_fold_card (MagicWandService.grid img.width img.height)
      {(sx, sy)} new hnd2 hnewg (fun p hp => (hmem2 p hp).2)
    obtain ⟨k, hk⟩ : ∃ k, img.width * img.height = k + 1 := ⟨img.width * img.height - 1, by omega⟩
    have hnewlen : new.length ≤ k := by omega
    unfold MagicWandService.floodFill
    rw [hk, floodLoop_cons]
    rw [if_pos (by
      unfold MagicWandService.colorsWithinTolerance
      simp)]
    rw [henq]
    rw [List.nil_append]
    have := floodLoop_allfail img
      ⟨(MagicWandService.pixelAt img sx sy).r, (MagicWandService.pixelAt img sx sy).g,
       (MagicWandService.pixelAt img sx sy).b⟩ 0 new k
      ({(sx, sy)} ∪ new.toFinset) (insert (sx, sy) ∅) 1 hnewlen
      (by
        intro p hp
        apply colors_ne_fail
        exact hdiff p (hmem2 p hp).1)
    rw [this]
    simp

/-- Witness for C4: a uniform 2×2 raster is fully selected from seed
(0,0); a 3×1 raster with a differing middle pixel selects only the seed
(1,0). -/
theorem floodFill_tolerance_zero_spec_witness :
    ((0 : ℕ) < 2 ∧
      MagicWandService.floodFill
        ⟨2, 2, [⟨7, 7, 7, 255⟩, ⟨7, 7, 7, 255⟩, ⟨7, 7, 7, 255⟩, ⟨7, 7, 7, 255⟩]⟩ 0 0
        ⟨7, 7, 7⟩ 0 = some (MagicWandService.grid 2 2, 2 * 2)) ∧
    ((1 : ℕ) < 3 ∧
      MagicWandService.floodFill
        ⟨3, 1, [⟨0, 0, 0, 255⟩, ⟨5, 5, 5, 255⟩, ⟨0, 0, 0, 255⟩]⟩ 1 0
        ⟨5, 5, 5⟩ 0 = some ({(1, 0)}, 1)) := by
  constructor
  · refine ⟨by decide, ?_⟩
    exact floodFill_tolerance_zero_spec.1
      ⟨2, 2, [⟨7, 7, 7, 255⟩, ⟨7, 7, 7, 255⟩, ⟨7, 7, 7, 255⟩, ⟨7, 7, 7, 255⟩]⟩ ⟨7, 7, 7⟩ 0 0
      (by decide) (by decide)
      (by intro x y hx hy; interval_cases x <;> interval_cases y <;> decide)
  · refine ⟨by decide, ?_⟩
    exact floodFill_tolerance_zero_spec.2
      ⟨3, 1, [⟨0, 0, 0, 255⟩, ⟨5, 5, 5, 255⟩, ⟨0, 0, 0, 255⟩]⟩ 1 0
      (by decide) (by decide) (by decide)

/-- Claim C5 as stated is false: with tolerance 255 a white pixel is at
Euclidean RGB distance `255·√3 ≈ 441.7 > 255` from a black seed, so the
flood fill of a black/white 2×1 raster from the black seed selects only 1
of its 2 pixels. -/
theorem floodFill_tolerance255_not_whole :
    MagicWandService.floodFill ⟨2, 1, [⟨0, 0, 0, 255⟩, ⟨255, 255, 255, 255⟩]⟩ 0 0
      ⟨0, 0, 0⟩ 255 = some ({(0, 0)}, 1) ∧ (1 : ℕ) ≠ 2 * 1 := by
  constructor
  · decide
  · decide

/-- C5 (amended): flood fill with tolerance 255 selects the whole raster
in one pass from any in-bounds seed provided every pixel's colour lies
within Euclidean RGB distance 255 of the sampled seed colour; colours
farther than 255 (the distance can reach `255·√3`) are not selected. -/
theorem floodFill_tolerance255_spec (img : MagicWandService.Raster) (c : RGB)
    (sx sy : ℕ) (hx : sx < img.width) (hy : sy < img.height)
    (hnear : ∀ x y : ℕ, x < img.width → y < img.height →
      MagicWandService.colorsWithinTolerance (MagicWandService.pixelAt img x y).r
        (MagicWandService.pixelAt img x y).g (MagicWandService.pixelAt img x y).b
        c 255 = true) :
    MagicWandService.floodFill img sx sy c 255 =
      some (MagicWandService.grid img.width img.height, img.width * img.height) := by
  apply floodFill_selects_all img c 255 sx sy hx hy
  intro p hp
  rw [mem_grid] at hp
  exact hnear p.1 p.2 hp.1 hp.2

/-- Witness for C5 (amended): a 1×2 black raster flood-filled with a
mid-gray target at tolerance 255 selects both pixels. -/
theorem floodFill_tolerance255_spec_witness :
    (0 : ℕ) < 1 ∧ (0 : ℕ) < 2 ∧
    MagicWandService.floodFill ⟨1, 2, [⟨0, 0, 0, 255⟩, ⟨0, 0, 0, 255⟩]⟩ 0 0
      ⟨100, 100, 100⟩ 255 = some (MagicWandService.grid 1 2, 1 * 2) := by
  refine ⟨by decide, by decide, ?_⟩
  exact floodFill_tolerance255_spec ⟨1, 2, [⟨0, 0, 0, 255⟩, ⟨0, 0, 0, 255⟩]⟩ ⟨100, 100, 100⟩
    0 0 (by decide) (by decide)
    (by intro x y hx hy; interval_cases x; interval_cases y <;> decide)

